import Mathlib

/-
Verification of the caption/narration synchronization and story-segmentation
pipeline of `standalone_video_creator.py` and of the no-repetition background
combiner of `background_video_processor.py`.

Python strings are modelled as lists of characters (`Str`); `str.split()`,
`str.strip()` and `" ".join` are modelled by `pySplit`, `pyStrip` and
`joinWithSpace` over that representation.  Float durations are modelled as
exact rationals.  The external sentence tokenizer (`nltk.sent_tokenize`), the
speech engine and the clip-validation checks are modelled as function
parameters; the external media engine's `concatenate_audioclips` is modelled
by its contract: the duration of a concatenation is the sum of the durations.
-/

namespace RedditVideo

/-- Python strings, modelled as lists of characters. -/
abbrev Str := List Char

/-- Characters treated as whitespace by Python's `str.split()` / `str.strip()`. -/
def pyIsSpace (c : Char) : Bool := c.isWhitespace

/-- Removal of trailing whitespace (the right half of Python's `str.strip()`). -/
def stripRight (s : Str) : Str := (s.reverse.dropWhile pyIsSpace).reverse

/-- Python's `str.strip()`: remove leading and trailing whitespace. -/
def pyStrip (s : Str) : Str := stripRight (s.dropWhile pyIsSpace)

/-- Helper for `pySplit`: scans the string, accumulating the current word in
`acc` (reversed), emitting a word whenever whitespace is met. -/
def pySplitAux : Str → Str → List Str
  | [], acc => if acc = [] then [] else [acc.reverse]
  | c :: rest, acc =>
    if pyIsSpace c then
      if acc = [] then pySplitAux rest []
      else acc.reverse :: pySplitAux rest []
    else pySplitAux rest (c :: acc)

/-- Python's `str.split()` with no separator: maximal runs of non-whitespace. -/
def pySplit (s : Str) : List Str := pySplitAux s []

/-- Python's `len(s.split())`, the word count used throughout the source. -/
def wordCount (s : Str) : ℕ := (pySplit s).length

/-- Python's `" ".join(parts)`. -/
def joinWithSpace : List Str → Str
  | [] => []
  | [s] => s
  | s :: rest => s ++ ' ' :: joinWithSpace rest

/-- The timing/limit configuration of `FixedSequentialRedditVideoCreator.__init__`
(lines 141-155 of `standalone_video_creator.py`).  The source hard-codes the
default values below; the spec's component contracts treat them as parameters,
so the embedding keeps them in a record. -/
structure Config where
  text_start_delay : ℚ
  text_duration_factor : ℚ
  text_transition_gap : ℚ
  words_per_minute : ℕ
  part_indicator_duration : ℚ
  part_indicator_silence : ℚ
  max_videos_per_story : ℕ
  max_video_duration : ℚ
deriving DecidableEq

/-- The values set in `__init__`: delay -0.15, factor 1.0, gap 0.15, 230 WPM,
part indicator 2.0s shown / 2.5s silence, at most 3 parts, 120s cap. -/
def defaultConfig : Config where
  text_start_delay := -(3/20)
  text_duration_factor := 1
  text_transition_gap := 3/20
  words_per_minute := 230
  part_indicator_duration := 2
  part_indicator_silence := 5/2
  max_videos_per_story := 3
  max_video_duration := 120

/-- The sentence normalization `[s.strip() for s in sent_tokenize(text) if s.strip()]`
applied to the tokenizer's output (lines 276 and 300). -/
def normalizeSentences (sentences : List Str) : List Str :=
  (sentences.map pyStrip).filter (fun s => s ≠ [])

/-- The accumulate/flush loop of `split_and_sync_chunks` (lines 307-321):
while the buffer is below `min_length` words, or appending the next sentence
stays within `max_length` words, grow the buffer; otherwise flush it and start
a new buffer with the current sentence.  The trailing buffer is flushed at the
end. -/
def split_and_sync_chunks_aux (min_length max_length : ℕ) : List Str → Str → List Str
  | [], buffer => if buffer = [] then [] else [buffer]
  | s :: rest, buffer =>
    let buffer_words := wordCount buffer
    let sentence_words := wordCount s
    if buffer_words < min_length then
      split_and_sync_chunks_aux min_length max_length rest (pyStrip (buffer ++ ' ' :: s))
    else if buffer_words + sentence_words ≤ max_length then
      split_and_sync_chunks_aux min_length max_length rest (pyStrip (buffer ++ ' ' :: s))
    else
      (if buffer = [] then [] else [buffer])
        ++ split_and_sync_chunks_aux min_length max_length rest s

/-- `split_and_sync_chunks` (lines 298-324), taking the tokenizer's sentence
list as input.  The source fixes `min_length = 8` and `max_length = 25`; the
spec's `segment(text, min_words, max_words)` contract parametrizes them.  The
final list comprehension `[c for c in chunks if c]` is the trailing filter. -/
def split_and_sync_chunks (min_length max_length : ℕ) (sentences : List Str) : List Str :=
  (split_and_sync_chunks_aux min_length max_length (normalizeSentences sentences) []).filter
    (fun c => c ≠ [])

/-- One entry of the `timings` list built in `generate_tts_chunks_and_durations`
(lines 365-371): the chunk text, its absolute narration start, the caption
display duration and the measured audio duration. -/
structure Timing where
  chunk : Str
  start : ℚ
  text_duration : ℚ
  audio_duration : ℚ
deriving DecidableEq

instance : Inhabited Timing := ⟨⟨[], 0, 0, 0⟩⟩

/-- The timing loop of `generate_tts_chunks_and_durations` (lines 356-375):
a cursor `t` starts at the given value; each chunk is stamped with
`start = t`, `text_duration = audio_duration * text_duration_factor`, and the
cursor advances by `audio_duration + text_transition_gap`.  The measured
audio durations (read back from the synthesized files) are the second
components of `measured`. -/
def generate_timings_from (cfg : Config) : List (Str × ℚ) → ℚ → List Timing
  | [], _ => []
  | (chunk, d) :: rest, t =>
    { chunk := chunk, start := t, text_duration := d * cfg.text_duration_factor,
      audio_duration := d }
      :: generate_timings_from cfg rest (t + d + cfg.text_transition_gap)

/-- The full timing list, with the cursor initialized to `t = 0.0` (line 357). -/
def generate_tts_timings (cfg : Config) (measured : List (Str × ℚ)) : List Timing :=
  generate_timings_from cfg measured 0

/-- The value of the cursor `t` after the loop, starting from the given value. -/
def cursor_from (cfg : Config) : List (Str × ℚ) → ℚ → ℚ
  | [], t => t
  | (_, d) :: rest, t => cursor_from cfg rest (t + d + cfg.text_transition_gap)

/-- The final value of the cursor `t` of `generate_tts_chunks_and_durations`. -/
def final_cursor (cfg : Config) (measured : List (Str × ℚ)) : ℚ :=
  cursor_from cfg measured 0

/-- Duration of `concatenate_audioclips([AudioFileClip(f) for f in audio_files])`
(lines 476-477): audio clips are concatenated back to back, so the duration of
the narration track is the sum of the chunks' audio durations. -/
def narration_audio_duration (timings : List Timing) : ℚ :=
  (timings.map (fun t => t.audio_duration)).sum

/-- The per-chunk synthesis stage with failure modelled explicitly: the
external engine (`synth`) either yields a measured duration or fails for a
chunk.  The source loop (lines 344-353 and 360-375) has no per-chunk handler,
so the first failure propagates as an exception, modelled as `Except.error`
carrying the failing chunk. -/
def measure_chunks (synth : Str → Option ℚ) : List Str → Except Str (List (Str × ℚ))
  | [] => .ok []
  | c :: rest =>
    match synth c with
    | none => .error c
    | some d =>
      match measure_chunks synth rest with
      | .error e => .error e
      | .ok tail => .ok ((c, d) :: tail)

/-- `generate_tts_chunks_and_durations` (lines 326-378) with explicit failure:
synthesize and measure every chunk, then build the timing list.  There is no
try/except around the per-chunk work, so one failure aborts the whole call. -/
def generate_tts_chunks_and_durations (cfg : Config) (synth : Str → Option ℚ)
    (chunks : List Str) : Except Str (List Timing) :=
  match measure_chunks synth chunks with
  | .error e => .error e
  | .ok measured => .ok (generate_tts_timings cfg measured)

/-- A text overlay as produced by `create_overlay_clip`: its scheduled start
time (after the configured delay) and its display duration.  The `textwrap`
line wrapping only reformats the displayed text and is not modelled. -/
structure Overlay where
  text : Str
  start : ℚ
  duration : ℚ
deriving DecidableEq

instance : Inhabited Overlay := ⟨⟨[], 0, 0⟩⟩

/-- When the overlay ends: scheduled start plus display duration. -/
def Overlay.endTime (o : Overlay) : ℚ := o.start + o.duration

/-- `create_overlay_clip` (lines 380-402): the clip starts at
`start + text_start_delay` and lasts `max(0.1, duration)` seconds. -/
def create_overlay_clip (cfg : Config) (text : Str) (duration start : ℚ) : Overlay :=
  { text := text, start := start + cfg.text_start_delay, duration := max (1/10) duration }

/-- The caption overlay of one narration chunk on the single-part timeline:
`create_overlay_clip(t['chunk'], duration=t['text_duration'], start=t['start'])`
(lines 468-473 with `total_parts = 1`). -/
def chunk_caption (cfg : Config) (t : Timing) : Overlay :=
  create_overlay_clip cfg t.chunk t.text_duration t.start

/-- The f-string `f"Part {part_number} of {total_parts}"` (line 449). -/
def part_indicator_text (part_number total_parts : ℕ) : Str :=
  "Part ".toList ++ (toString part_number).toList ++ " of ".toList
    ++ (toString total_parts).toList

/-- The `final_overlays` list of `create_single_video_part` (lines 444-473):
for a multi-part story, a "Part X of Y" overlay scheduled at `start=0` is
prepended, and every chunk overlay's start is shifted by
`part_indicator_silence`; for a single-part story the chunk overlays start at
their timing's `start`. -/
def final_overlays (cfg : Config) (part_number total_parts : ℕ)
    (timings : List Timing) : List Overlay :=
  (if 1 < total_parts then
      [create_overlay_clip cfg (part_indicator_text part_number total_parts)
        cfg.part_indicator_duration 0]
    else [])
  ++ timings.map (fun t =>
      create_overlay_clip cfg t.chunk t.text_duration
        (t.start + (if 1 < total_parts then cfg.part_indicator_silence else 0)))

/-- The audio track assembled in lines 476-493, as the list of the durations
of its consecutive pieces: for a multi-part story a silence clip of
`part_indicator_silence` seconds is concatenated before the narration chunks;
otherwise the track is just the concatenated narration. -/
def full_audio_durations (cfg : Config) (total_parts : ℕ)
    (timings : List Timing) : List ℚ :=
  (if 1 < total_parts then [cfg.part_indicator_silence] else [])
  ++ timings.map (fun t => t.audio_duration)

/-- Python's `int()` applied to a (nonnegative-or-negative) rational: truncation
toward zero.  For the nonnegative values arising in the partitioner this is
the floor. -/
def pyInt (q : ℚ) : ℤ := if 0 ≤ q then ⌊q⌋ else -⌊-q⌋

/-- The f-string `f"{title}. {content}"` of line 254. -/
def full_script (title content : Str) : Str := title ++ '.' :: ' ' :: content

/-- `estimated_duration = (total_words * 60) / self.words_per_minute` (line 257). -/
def estimated_duration_of (cfg : Config) (script : Str) : ℚ :=
  ((wordCount script * 60 : ℕ) : ℚ) / (cfg.words_per_minute : ℚ)

/-- The normalized sentence list of the story content (line 276). -/
def sentences_of (tok : Str → List Str) (content : Str) : List Str :=
  normalizeSentences (tok content)

/-- The contiguous sentence groups of the part loop (lines 280-285):
`sentences_per_part = len(sentences) // actual_parts`; every part except the
last takes the next `sentences_per_part` sentences, the last part takes all
remaining sentences. -/
def part_sentence_groups (sentences : List Str) (actual_parts : ℕ) : List (List Str) :=
  let sentences_per_part := sentences.length / actual_parts
  (List.range actual_parts).map fun part_num =>
    if part_num = actual_parts - 1 then
      sentences.drop (part_num * sentences_per_part)
    else
      (sentences.drop (part_num * sentences_per_part)).take sentences_per_part

/-- `split_story_for_2min_limit` (lines 250-296), with the external sentence
tokenizer as the parameter `tok`.  When the estimate fits the cap the whole
script is one part; otherwise `ideal_parts = int(estimate/cap) + 1` is clamped
to `max_videos_per_story`, the sentences are grouped, each part is prefixed
with the title, and whitespace-only parts are discarded (`if part_content.strip()`). -/
def split_story_for_2min_limit (cfg : Config) (tok : Str → List Str)
    (title content : Str) : List Str :=
  let script := full_script title content
  let estimated_duration := estimated_duration_of cfg script
  if estimated_duration ≤ cfg.max_video_duration then [script]
  else
    let ideal_parts := (pyInt (estimated_duration / cfg.max_video_duration) + 1).toNat
    let actual_parts := min ideal_parts cfg.max_videos_per_story
    let sentences := sentences_of tok content
    ((part_sentence_groups sentences actual_parts).map
        (fun g => pyStrip (title ++ '.' :: ' ' :: joinWithSpace g))).filter
      (fun p => p ≠ [])

/-- The TTS stage of `create_single_video_part` (lines 404-420) with explicit
failure: chunk the part, synthesize; a synthesis exception propagates
(`Except.error`), and an empty timing list makes the part return `None`
("No overlays for this part"). -/
def create_single_video_part_tts (cfg : Config) (tok : Str → List Str)
    (synth : Str → Option ℚ) (story_part : Str) : Except Str (Option (List Timing)) :=
  let chunks := split_and_sync_chunks 8 25 (tok story_part)
  match generate_tts_chunks_and_durations cfg synth chunks with
  | .error e => .error e
  | .ok overlays_info => if overlays_info = [] then .ok none else .ok (some overlays_info)

/-- The part loop of `create_story_videos` (lines 559-571): parts are processed
in order; a part returning `None` is logged and skipped, but an exception from
a part aborts the loop (there is no try/except), so the parts after it are not
produced.  The result is the list of completed parts' timelines together with
the aborting error, if any. -/
def create_story_videos_run (cfg : Config) (tok : Str → List Str)
    (synth : Str → Option ℚ) : List Str → List (List Timing) × Option Str
  | [] => ([], none)
  | part :: rest =>
    match create_single_video_part_tts cfg tok synth part with
    | .error e => ([], some e)
    | .ok none => create_story_videos_run cfg tok synth rest
    | .ok (some ts) =>
      let r := create_story_videos_run cfg tok synth rest
      (ts :: r.1, r.2)

/-- One entry of the background pool of `background_video_processor.py`
(lines 380-388): a source video and its measured duration.  Whether loading
and validating the clip succeeds is modelled by the oracles passed to the
combiner. -/
structure BVideo where
  filename : Str
  duration : ℚ
deriving DecidableEq

/-- The while loop of `combine_videos_to_target_duration_no_repeat`
(lines 304-341): while the accumulated duration is below the target and the
pool is non-empty, pop the first video; a failed load/validation (`valid`)
consumes the video and continues; a video fitting the remaining duration is
appended whole; otherwise a partial segment of exactly the remaining duration
is appended (when `validSeg` accepts it) and the loop breaks.  Returns the
used videos, the accumulated duration, and the remaining pool. -/
def combine_loop (target : ℚ) (valid validSeg : BVideo → Bool) :
    List BVideo → ℚ → List BVideo → List BVideo × ℚ × List BVideo
  | [], total_duration, used => (used, total_duration, [])
  | v :: rest, total_duration, used =>
    if total_duration < target then
      if valid v then
        if v.duration ≤ target - total_duration then
          combine_loop target valid validSeg rest (total_duration + v.duration) (used ++ [v])
        else
          if validSeg v then (used ++ [v], total_duration + (target - total_duration), rest)
          else (used, total_duration, rest)
      else combine_loop target valid validSeg rest total_duration used
    else (used, total_duration, v :: rest)

/-- `combine_videos_to_target_duration_no_repeat` (lines 291-369): shuffle the
pool, run the combining loop from duration 0, and return `None` when nothing
was combined or the result is shorter than 60 seconds; in every case the
shrunken pool is returned to the caller. -/
def combine_videos_to_target_duration_no_repeat (target : ℚ)
    (valid validSeg : BVideo → Bool) (shuffle : List BVideo → List BVideo)
    (available_videos : List BVideo) : Option (List BVideo × ℚ) × List BVideo :=
  let r := combine_loop target valid validSeg (shuffle available_videos) 0 []
  if r.1 = [] then (none, r.2.2)
  else if r.2.1 < 60 then (none, r.2.2)
  else (some (r.1, r.2.1), r.2.2)

/-- The per-video loop of `create_mobile_shorts_no_repetition` (lines 410-424):
up to `video_limit` iterations, stopping early when the pool is exhausted; each
iteration runs the combiner on the current pool and threads the returned
(shrunken) pool into the next iteration; a `None` result is skipped.  Each
produced output is the list of source videos it drew footage from, with its
accumulated duration. -/
def create_mobile_shorts_no_repetition (target : ℚ) (valid validSeg : BVideo → Bool)
    (shuffle : List BVideo → List BVideo) : ℕ → List BVideo → List (List BVideo × ℚ)
  | 0, _ => []
  | n + 1, available_videos =>
    if available_videos = [] then []
    else
      match combine_videos_to_target_duration_no_repeat target valid validSeg shuffle
          available_videos with
      | (none, remaining) =>
        create_mobile_shorts_no_repetition target valid validSeg shuffle n remaining
      | (some clip, remaining) =>
        clip :: create_mobile_shorts_no_repetition target valid validSeg shuffle n remaining

/-- Configuration of the caption-bound scenario of the spec: duration factor
0.95, start delay 0.0 (claim C3). -/
def scenario3Config : Config :=
  { defaultConfig with text_duration_factor := 19/20, text_start_delay := 0 }

/-- The timed chunk of the C3 scenario: one chunk of measured duration 4.0s. -/
def scenario3Timing : Timing :=
  (generate_tts_timings scenario3Config [("chunk".toList, 4)]).headI

/-- Configuration of the partitioning scenario of the spec (claim C6):
cap 120s, at most 3 parts; 2 words per minute makes a 10-word script estimate
exactly 300s. -/
def scenario6Config : Config :=
  { defaultConfig with
    words_per_minute := 2
    max_video_duration := 120
    max_videos_per_story := 3 }

/-- Title of the C6 scenario story. -/
def scenario6Title : Str := "a".toList

/-- Content of the C6 scenario story: nine words, so the full script
"a. b b b b b b b b b" has ten words and estimates to 300s at 2 WPM. -/
def scenario6Content : Str := "b b b b b b b b b".toList

/-- Tokenizer of the C6 scenario: the whole content is one sentence. -/
def scenario6Tok : Str → List Str := fun s => [s]

theorem generate_timings_from_length (cfg : Config) (m : List (Str × ℚ)) (t0 : ℚ) :
    (generate_timings_from cfg m t0).length = m.length := by
  induction m generalizing t0 with
  | nil => rfl
  | cons p rest ih =>
    obtain ⟨c, d⟩ := p
    simp [generate_timings_from, ih]

theorem generate_timings_from_chain (cfg : Config)
    (hgap : 0 ≤ cfg.text_transition_gap) :
    ∀ (m : List (Str × ℚ)) (t0 : ℚ),
      List.Chain' (fun a b => a.start + a.audio_duration ≤ b.start)
        (generate_timings_from cfg m t0) := by
  intro m
  induction m with
  | nil => intro t0; simp [generate_timings_from]
  | cons p rest ih =>
    obtain ⟨c, d⟩ := p
    intro t0
    rw [generate_timings_from, List.chain'_cons']
    refine ⟨?_, ih _⟩
    intro y hy
    cases rest with
    | nil => simp [generate_timings_from] at hy
    | cons q rest2 =>
      obtain ⟨qc, qd⟩ := q
      simp only [generate_timings_from, List.head?_cons, Option.mem_def,
        Option.some.injEq] at hy
      subst hy
      simp only
      linarith

/-- Claim C1: for every sequence of timed chunks, narration segments never
overlap: with a nonnegative transition gap, the narration start time of chunk
`i+1` is at least the narration start of chunk `i` plus its audio duration
(the cursor advances by `audio_duration + text_transition_gap`). -/
theorem claim1_non_overlap (cfg : Config) (measured : List (Str × ℚ))
    (hgap : 0 ≤ cfg.text_transition_gap) :
    ∀ (i : ℕ) (hi : i + 1 < (generate_tts_timings cfg measured).length),
      ((generate_tts_timings cfg measured).get ⟨i, by omega⟩).start
          + ((generate_tts_timings cfg measured).get ⟨i, by omega⟩).audio_duration
        ≤ ((generate_tts_timings cfg measured).get ⟨i + 1, hi⟩).start := by
  intro i hi
  have hc := generate_timings_from_chain cfg hgap measured 0
  rw [List.chain'_iff_get] at hc
  have hi2 : i < (generate_timings_from cfg measured 0).length - 1 := by
    have hsame : (generate_tts_timings cfg measured).length
        = (generate_timings_from cfg measured 0).length := rfl
    omega
  exact hc i hi2

/-- Claim C1 witness: a concrete two-chunk timeline under the source's
configuration. -/
theorem claim1_non_overlap_witness :
    ((generate_tts_timings defaultConfig [("a".toList, 1), ("b".toList, 2)]).get
          ⟨0, by simp [generate_tts_timings, generate_timings_from]⟩).start
        + ((generate_tts_timings defaultConfig [("a".toList, 1), ("b".toList, 2)]).get
          ⟨0, by simp [generate_tts_timings, generate_timings_from]⟩).audio_duration
      ≤ ((generate_tts_timings defaultConfig [("a".toList, 1), ("b".toList, 2)]).get
          ⟨1, by simp [generate_tts_timings, generate_timings_from]⟩).start :=
  claim1_non_overlap defaultConfig [("a".toList, 1), ("b".toList, 2)]
    (by norm_num [defaultConfig]) 0
    (by simp [generate_tts_timings, generate_timings_from])

theorem cursor_from_eq (cfg : Config) :
    ∀ (m : List (Str × ℚ)) (t0 : ℚ),
      cursor_from cfg m t0
        = t0 + (m.map (fun p => p.2)).sum
            + m.length * cfg.text_transition_gap := by
  intro m
  induction m with
  | nil => intro t0; simp [cursor_from]
  | cons p rest ih =>
    obtain ⟨c, d⟩ := p
    intro t0
    rw [cursor_from, ih]
    simp only [List.length_cons, List.map_cons, List.sum_cons]
    push_cast
    ring

theorem narration_audio_duration_generate (cfg : Config) :
    ∀ (m : List (Str × ℚ)) (t0 : ℚ),
      narration_audio_duration (generate_timings_from cfg m t0)
        = (m.map (fun p => p.2)).sum := by
  intro m
  induction m with
  | nil => intro t0; simp [narration_audio_duration, generate_timings_from]
  | cons p rest ih =>
    obtain ⟨c, d⟩ := p
    intro t0
    have := ih (t0 + d + cfg.text_transition_gap)
    simp [narration_audio_duration, generate_timings_from] at this ⊢
    exact this

/-- Claim C2 counterexample: for the two chunks of durations 1s and 1s under
the source's configuration (gap 0.15), the concatenated narration audio lasts
2s, while the final cursor minus one transition gap is 2.15s. -/
theorem claim2_counterexample :
    narration_audio_duration
        (generate_tts_timings defaultConfig [("a".toList, 1), ("b".toList, 1)])
      ≠ final_cursor defaultConfig [("a".toList, 1), ("b".toList, 1)]
          - defaultConfig.text_transition_gap := by
  norm_num [narration_audio_duration, generate_tts_timings, generate_timings_from,
    final_cursor, cursor_from, defaultConfig]

/-- Claim C2 (amended): the duration of the concatenated narration audio track
equals the final cursor `t` minus one transition gap per chunk (the loop adds
a gap after every chunk, including the last), i.e. the sum of the audio
durations. -/
theorem claim2_narration_duration (cfg : Config) (measured : List (Str × ℚ)) :
    narration_audio_duration (generate_tts_timings cfg measured)
      = final_cursor cfg measured
          - measured.length * cfg.text_transition_gap := by
  rw [generate_tts_timings, narration_audio_duration_generate cfg measured 0,
    final_cursor, cursor_from_eq cfg measured 0]
  ring

theorem text_duration_of_mem (cfg : Config) :
    ∀ (m : List (Str × ℚ)) (t0 : ℚ) (T : Timing),
      T ∈ generate_timings_from cfg m t0 →
      T.text_duration = T.audio_duration * cfg.text_duration_factor := by
  intro m
  induction m with
  | nil => intro t0 T hT; simp [generate_timings_from] at hT
  | cons p rest ih =>
    obtain ⟨c, d⟩ := p
    intro t0 T hT
    rw [generate_timings_from, List.mem_cons] at hT
    rcases hT with h | h
    · subst h; rfl
    · exact ih _ T h

/-- Claim C3: the caption display duration of a timed chunk is
`max(0.1, audio_duration * text_duration_factor)`, hence at least the 0.1s
floor and at most `audio_duration * duration_factor` plus an epsilon of 0.1s
(exactly `audio_duration * duration_factor` whenever that product is at least
the floor); in the spec's scenario (audio 4.0s, factor 0.95, delay 0.0) the
caption lasts 3.8s and ends 3.8s after its start. -/
theorem claim3_caption_bounds (cfg : Config) (measured : List (Str × ℚ))
    (T : Timing) (hT : T ∈ generate_tts_timings cfg measured)
    (hd : 0 ≤ T.audio_duration) (hf : 0 ≤ cfg.text_duration_factor) :
    ((1:ℚ)/10 ≤ (chunk_caption cfg T).duration
      ∧ (chunk_caption cfg T).duration
          ≤ T.audio_duration * cfg.text_duration_factor + 1/10
      ∧ ((1:ℚ)/10 ≤ T.audio_duration * cfg.text_duration_factor →
          (chunk_caption cfg T).duration
            = T.audio_duration * cfg.text_duration_factor))
    ∧ ((chunk_caption scenario3Config scenario3Timing).duration = 19/5
      ∧ (chunk_caption scenario3Config scenario3Timing).endTime
          = (chunk_caption scenario3Config scenario3Timing).start + 19/5) := by
  have htd := text_duration_of_mem cfg measured 0 T hT
  have hmul : 0 ≤ T.audio_duration * cfg.text_duration_factor := mul_nonneg hd hf
  constructor
  · refine ⟨?_, ?_, ?_⟩
    · exact le_max_left _ _
    · show max ((1:ℚ)/10) T.text_duration ≤ _
      rw [htd]
      apply max_le <;> linarith
    · intro hge
      show max ((1:ℚ)/10) T.text_duration = _
      rw [htd]
      exact max_eq_right hge
  · constructor
    · norm_num [chunk_caption, create_overlay_clip, scenario3Timing, scenario3Config,
        defaultConfig, generate_tts_timings, generate_timings_from]
    · norm_num [chunk_caption, create_overlay_clip, scenario3Timing, scenario3Config,
        defaultConfig, generate_tts_timings, generate_timings_from, Overlay.endTime]

/-- Claim C3 witness: the scenario chunk itself satisfies the bounds. -/
theorem claim3_caption_bounds_witness :
    (1:ℚ)/10 ≤ (chunk_caption scenario3Config scenario3Timing).duration :=
  (claim3_caption_bounds scenario3Config [("chunk".toList, 4)] scenario3Timing
    (by simp [scenario3Timing, generate_tts_timings, generate_timings_from])
    (by norm_num [scenario3Timing, generate_tts_timings, generate_timings_from])
    (by norm_num [scenario3Config, defaultConfig])).1.1

/-- Claim C8 counterexample: under the source's configuration the "Part X of Y"
overlay of a two-part story is scheduled at `0 + text_start_delay = -0.15`,
not at time 0. -/
theorem claim8_counterexample :
    ((final_overlays defaultConfig 1 2
        (generate_tts_timings defaultConfig [("a".toList, 1)])).headI).start ≠ 0 := by
  norm_num [final_overlays, create_overlay_clip, defaultConfig, generate_tts_timings,
    generate_timings_from]

/-- Claim C8 (amended): for a multi-part story the composed timeline prepends
the "Part X of Y" caption scheduled at time 0 (so it appears at
`0 + text_start_delay`), its display duration is the configured (floored)
`part_indicator_duration`, every narration chunk's caption is shifted later by
exactly `part_indicator_silence` relative to the single-part timeline, and a
silence clip of that length is prepended to the narration audio track. -/
theorem claim8_part_indicator (cfg : Config) (part_number total_parts : ℕ)
    (timings : List Timing) (hmulti : 1 < total_parts) :
    final_overlays cfg part_number total_parts timings
        = create_overlay_clip cfg (part_indicator_text part_number total_parts)
            cfg.part_indicator_duration 0
          :: (final_overlays cfg part_number 1 timings).map
              (fun o => { o with start := o.start + cfg.part_indicator_silence })
    ∧ full_audio_durations cfg total_parts timings
        = cfg.part_indicator_silence :: full_audio_durations cfg 1 timings
    ∧ (create_overlay_clip cfg (part_indicator_text part_number total_parts)
          cfg.part_indicator_duration 0).start = 0 + cfg.text_start_delay
    ∧ (create_overlay_clip cfg (part_indicator_text part_number total_parts)
          cfg.part_indicator_duration 0).duration
        = max (1/10) cfg.part_indicator_duration := by
  refine ⟨?_, ?_, rfl, rfl⟩
  · simp only [final_overlays, if_pos hmulti, if_neg (lt_irrefl 1), List.map_map,
      List.nil_append, List.cons_append, List.singleton_append]
    congr 1
    apply List.map_congr_left
    intro t ht
    simp only [Function.comp_apply, create_overlay_clip, Overlay.mk.injEq, true_and,
      and_true]
    ring
  · simp only [full_audio_durations, if_pos hmulti, if_neg (lt_irrefl 1),
      List.nil_append, List.singleton_append]

/-- Claim C8 witness: the audio-prefix conjunct at a concrete two-part story. -/
theorem claim8_part_indicator_witness :
    full_audio_durations defaultConfig 2 []
      = defaultConfig.part_indicator_silence :: full_audio_durations defaultConfig 1 [] :=
  (claim8_part_indicator defaultConfig 1 2 [] (by norm_num)).2.1

theorem measure_chunks_error (synth : Str → Option ℚ) :
    ∀ (chunks : List Str), (∃ c ∈ chunks, synth c = none) →
      ∃ e, measure_chunks synth chunks = .error e := by
  intro chunks
  induction chunks with
  | nil => rintro ⟨c, hc, hn⟩; simp at hc
  | cons a rest ih =>
    rintro ⟨c, hc, hn⟩
    cases ha : synth a with
    | none => exact ⟨a, by simp [measure_chunks, ha]⟩
    | some d =>
      rcases List.mem_cons.mp hc with h | h
      · subst h; rw [hn] at ha; cases ha
      · obtain ⟨e, he⟩ := ih ⟨c, h, hn⟩
        exact ⟨e, by simp [measure_chunks, ha, he]⟩

/-- Claim C9 counterexample: with a synthesizer failing only on the middle
chunk "b", the TTS stage returns an error (the exception aborts the whole
part) instead of a timeline that merely excludes the failed chunk. -/
theorem claim9_counterexample :
    generate_tts_chunks_and_durations defaultConfig
        (fun c => if c = "b".toList then none else some 1)
        ["a".toList, "b".toList, "c".toList]
      = Except.error ("b".toList) := by
  rfl

/-- Claim C9 (amended): a synthesis failure for one chunk is not handled
per-chunk: the TTS stage of the part returns an error instead of a timeline,
and that error aborts the story's part loop, so no later part is processed
(only a part that merely produces an empty timeline is skipped with the
remaining parts continuing). -/
theorem claim9_failure_aborts :
    (∀ (cfg : Config) (synth : Str → Option ℚ) (chunks : List Str),
        (∃ c ∈ chunks, synth c = none) →
        ∃ e, generate_tts_chunks_and_durations cfg synth chunks = Except.error e)
    ∧ (∀ (cfg : Config) (tok : Str → List Str) (synth : Str → Option ℚ)
        (part : Str) (rest : List Str) (e : Str),
        create_single_video_part_tts cfg tok synth part = Except.error e →
        create_story_videos_run cfg tok synth (part :: rest) = ([], some e)) := by
  constructor
  · intro cfg synth chunks h
    obtain ⟨e, he⟩ := measure_chunks_error synth chunks h
    exact ⟨e, by simp [generate_tts_chunks_and_durations, he]⟩
  · intro cfg tok synth part rest e h
    simp [create_story_videos_run, h]

/-- Claim C9 witness: a story with one failing part aborts at that part. -/
theorem claim9_failure_aborts_witness :
    (∃ e, generate_tts_chunks_and_durations defaultConfig
        (fun _ => (none : Option ℚ)) ["y".toList] = Except.error e)
    ∧ create_story_videos_run defaultConfig (fun s => [s]) (fun _ => none)
        ["x".toList] = ([], some ("x".toList)) :=
  ⟨claim9_failure_aborts.1 defaultConfig _ _ ⟨"y".toList, by simp, rfl⟩,
   claim9_failure_aborts.2 defaultConfig _ _ _ [] ("x".toList) (by rfl)⟩

/-- Claim C4 counterexample: for the four single-word sentences "A","B","C","D"
with `min_words = 2` and `max_words = 4`, the segmenter does NOT return the two
chunks ["A B", "C D"]: once the buffer "A B" reaches `min_words`, each next
sentence is still appended because the total stays within `max_words`. -/
theorem claim4_counterexample :
    split_and_sync_chunks 2 4 ["A".toList, "B".toList, "C".toList, "D".toList]
      ≠ ["A B".toList, "C D".toList] := by decide

/-- Claim C4 (amended): for the four single-word sentences "A","B","C","D" with
`min_words = 2` and `max_words = 4`, the segmenter returns the single merged
chunk ["A B C D"] (2+1 ≤ 4 and 3+1 ≤ 4, so the buffer never flushes early). -/
theorem claim4_pair_merge :
    split_and_sync_chunks 2 4 ["A".toList, "B".toList, "C".toList, "D".toList]
      = ["A B C D".toList] := by decide

theorem pySplitAux_nil_eq (acc : Str) :
    pySplitAux [] acc = if acc = [] then [] else [acc.reverse] := rfl

theorem pySplitAux_cons_eq (c : Char) (rest acc : Str) :
    pySplitAux (c :: rest) acc
      = if pyIsSpace c = true then
          (if acc = [] then pySplitAux rest [] else acc.reverse :: pySplitAux rest [])
        else pySplitAux rest (c :: acc) := rfl

theorem length_dropWhile_le (p : Char → Bool) : ∀ (l : Str), (l.dropWhile p).length ≤ l.length := by
  intro l
  induction l with
  | nil => simp
  | cons c t ih =>
    rw [List.dropWhile_cons]
    by_cases hc : p c = true
    · rw [if_pos hc]
      exact Nat.le_trans ih (Nat.le_succ _)
    · rw [if_neg hc]

theorem dropWhile_eq_self_of_length (p : Char → Bool) :
    ∀ (l : Str), l.length ≤ (l.dropWhile p).length → l.dropWhile p = l := by
  intro l
  cases l with
  | nil => intro _; rfl
  | cons c t =>
    intro h
    by_cases hc : p c = true
    · rw [List.dropWhile_cons, if_pos hc] at h ⊢
      have hle := length_dropWhile_le p t
      simp only [List.length_cons] at h
      omega
    · rw [List.dropWhile_cons, if_neg hc]

theorem dropWhile_eq_self_of_pyStrip {b : Str} (hb : pyStrip b = b) :
    b.dropWhile pyIsSpace = b := by
  apply dropWhile_eq_self_of_length
  have h1 : (stripRight (b.dropWhile pyIsSpace)).length ≤ (b.dropWhile pyIsSpace).length := by
    rw [stripRight, List.length_reverse]
    calc ((b.dropWhile pyIsSpace).reverse.dropWhile pyIsSpace).length
        ≤ (b.dropWhile pyIsSpace).reverse.length := length_dropWhile_le _ _
      _ = (b.dropWhile pyIsSpace).length := List.length_reverse _
  rw [show stripRight (b.dropWhile pyIsSpace) = pyStrip b from rfl, hb] at h1
  exact h1

theorem stripRight_eq_self_of_pyStrip {b : Str} (hb : pyStrip b = b) : stripRight b = b := by
  have h := dropWhile_eq_self_of_pyStrip hb
  calc stripRight b = stripRight (b.dropWhile pyIsSpace) := by rw [h]
    _ = pyStrip b := rfl
    _ = b := hb

theorem dropWhile_reverse_eq_of_stripRight {s : Str} (h : stripRight s = s) :
    s.reverse.dropWhile pyIsSpace = s.reverse := by
  have h2 := congrArg List.reverse h
  rw [stripRight, List.reverse_reverse] at h2
  rw [h2]

theorem exists_cons_false_of_dropWhile_eq_self (p : Char → Bool) {l : Str} (hne : l ≠ [])
    (h : l.dropWhile p = l) : ∃ c t, l = c :: t ∧ p c = false := by
  cases l with
  | nil => exact absurd rfl hne
  | cons c t =>
    by_cases hc : p c = true
    · rw [List.dropWhile_cons, if_pos hc] at h
      have hle := length_dropWhile_le p t
      have hlen := congrArg List.length h
      simp only [List.length_cons] at hlen
      omega
    · exact ⟨c, t, rfl, by simpa using hc⟩

theorem dropWhile_append_eq_self (p : Char → Bool) {l : Str} (hne : l ≠ [])
    (h : l.dropWhile p = l) (x : Str) : (l ++ x).dropWhile p = l ++ x := by
  obtain ⟨c, t, rfl, hc⟩ := exists_cons_false_of_dropWhile_eq_self p hne h
  simp [List.dropWhile_cons, hc]

theorem pyStrip_join_step {b s : Str} (hb : pyStrip b = b) (hbne : b ≠ [])
    (hs : pyStrip s = s) (hsne : s ≠ []) :
    pyStrip (b ++ ' ' :: s) = b ++ ' ' :: s := by
  have hdb := dropWhile_eq_self_of_pyStrip hb
  have hrs := dropWhile_reverse_eq_of_stripRight (stripRight_eq_self_of_pyStrip hs)
  have hsrne : s.reverse ≠ [] := by simpa [List.reverse_eq_nil_iff] using hsne
  rw [pyStrip, dropWhile_append_eq_self pyIsSpace hbne hdb, stripRight]
  have hrev : (b ++ ' ' :: s).reverse = s.reverse ++ (' ' :: b.reverse) := by
    rw [show (b ++ ' ' :: s) = (b ++ [' ']) ++ s from by simp, List.reverse_append,
      List.reverse_append]
    simp
  rw [hrev, dropWhile_append_eq_self pyIsSpace hsrne hrs]
  rw [List.reverse_append, List.reverse_reverse]
  simp

theorem dropWhile_dropWhile (p : Char → Bool) : ∀ (l : Str),
    (l.dropWhile p).dropWhile p = l.dropWhile p := by
  intro l
  induction l with
  | nil => rfl
  | cons c t ih =>
    rw [List.dropWhile_cons]
    by_cases hc : p c = true
    · rw [if_pos hc]; exact ih
    · rw [if_neg hc, List.dropWhile_cons, if_neg hc]

theorem stripRight_idem (s : Str) : stripRight (stripRight s) = stripRight s := by
  rw [stripRight, stripRight, List.reverse_reverse, dropWhile_dropWhile]

theorem stripRight_decomp (s : Str) :
    ∃ t, s = stripRight s ++ t ∧ ∀ c ∈ t, pyIsSpace c = true := by
  refine ⟨(s.reverse.takeWhile pyIsSpace).reverse, ?_, ?_⟩
  · have h := List.takeWhile_append_dropWhile (p := pyIsSpace) (l := s.reverse)
    have h2 := congrArg List.reverse h
    rw [List.reverse_append, List.reverse_reverse] at h2
    rw [stripRight]
    exact h2.symm
  · intro c hc
    rw [List.mem_reverse] at hc
    exact List.mem_takeWhile_imp hc

theorem dropWhile_head_false (p : Char → Bool) : ∀ (l : Str) {c : Char} {t : Str},
    l.dropWhile p = c :: t → p c = false := by
  intro l
  induction l with
  | nil => intro c t h; cases h
  | cons a r ih =>
    intro c t h
    rw [List.dropWhile_cons] at h
    by_cases ha : p a = true
    · rw [if_pos ha] at h; exact ih h
    · rw [if_neg ha] at h
      injection h with h1 h2
      subst h1
      simpa using ha

theorem pyStrip_idem (s : Str) : pyStrip (pyStrip s) = pyStrip s := by
  have h1 : (pyStrip s).dropWhile pyIsSpace = pyStrip s := by
    cases hd : s.dropWhile pyIsSpace with
    | nil =>
      have hn : pyStrip s = [] := by simp [pyStrip, hd, stripRight]
      simp [hn]
    | cons c t =>
      have hc : pyIsSpace c = false := dropWhile_head_false pyIsSpace s hd
      have hps : pyStrip s = stripRight (c :: t) := by rw [pyStrip, hd]
      cases hsr : stripRight (c :: t) with
      | nil => simp [hps, hsr]
      | cons c2 t2 =>
        obtain ⟨u, hu, _⟩ := stripRight_decomp (c :: t)
        rw [hsr] at hu
        have hc2 : pyIsSpace c2 = false := by
          have h5 : c2 :: (t2 ++ u) = c :: t := by
            rw [← List.cons_append]
            exact hu.symm
          have hcc : c2 = c := by injection h5
          rw [hcc]; exact hc
        rw [hps, hsr, List.dropWhile_cons, if_neg (by simp [hc2])]
  have h2 : stripRight (pyStrip s) = pyStrip s := by
    rw [pyStrip, stripRight_idem]
  rw [pyStrip, h1, h2]

theorem pySplitAux_ne_nil : ∀ (s acc : Str), acc ≠ [] → pySplitAux s acc ≠ [] := by
  intro s
  induction s with
  | nil => intro acc h; simp [pySplitAux, h]
  | cons c t ih =>
    intro acc h
    rw [pySplitAux]
    by_cases hc : pyIsSpace c = true
    · rw [if_pos hc, if_neg h]; simp
    · rw [if_neg hc]; exact ih _ (by simp)

theorem pySplitAux_all_ws : ∀ (t : Str), (∀ c ∈ t, pyIsSpace c = true) →
    pySplitAux t [] = [] := by
  intro t
  induction t with
  | nil => intro _; rfl
  | cons c r ih =>
    intro h
    have hc : pyIsSpace c = true := h c (by simp)
    rw [pySplitAux, if_pos hc, if_pos rfl]
    exact ih (fun x hx => h x (by simp [hx]))

theorem pySplit_eq_nil_imp : ∀ (s : Str), pySplit s = [] → ∀ c ∈ s, pyIsSpace c = true := by
  intro s
  induction s with
  | nil => intro _ c hc; simp at hc
  | cons a t ih =>
    intro h c hc
    by_cases ha : pyIsSpace a = true
    · rw [pySplit, pySplitAux, if_pos ha, if_pos rfl] at h
      rcases List.mem_cons.mp hc with rfl | hct
      · exact ha
      · exact ih h c hct
    · rw [pySplit, pySplitAux, if_neg ha] at h
      exact absurd h (pySplitAux_ne_nil t [a] (by simp))

theorem pySplitAux_append_sep (b : Str) : ∀ (a acc : Str),
    pySplitAux (a ++ ' ' :: b) acc = pySplitAux a acc ++ pySplit b := by
  intro a
  induction a with
  | nil =>
    intro acc
    have hsp : pyIsSpace ' ' = true := by decide
    show pySplitAux (' ' :: b) acc = pySplitAux [] acc ++ pySplit b
    rw [pySplitAux_cons_eq, if_pos hsp, pySplitAux_nil_eq]
    by_cases h : acc = []
    · rw [if_pos h, if_pos h, List.nil_append]
      rfl
    · rw [if_neg h, if_neg h]
      rfl
  | cons c t ih =>
    intro acc
    show pySplitAux (c :: (t ++ ' ' :: b)) acc = pySplitAux (c :: t) acc ++ pySplit b
    rw [pySplitAux_cons_eq, pySplitAux_cons_eq]
    by_cases hc : pyIsSpace c = true
    · rw [if_pos hc, if_pos hc]
      by_cases h : acc = []
      · rw [if_pos h, if_pos h]; exact ih []
      · rw [if_neg h, if_neg h, ih []]; rfl
    · rw [if_neg hc, if_neg hc]; exact ih (c :: acc)

theorem pySplit_append_sep (a b : Str) :
    pySplit (a ++ ' ' :: b) = pySplit a ++ pySplit b :=
  pySplitAux_append_sep b a []

theorem pySplitAux_dropWhile_ws : ∀ (s : Str),
    pySplitAux (s.dropWhile pyIsSpace) [] = pySplitAux s [] := by
  intro s
  induction s with
  | nil => rfl
  | cons c t ih =>
    by_cases hc : pyIsSpace c = true
    · rw [List.dropWhile_cons, if_pos hc, ih, pySplitAux, if_pos hc, if_pos rfl]
    · rw [List.dropWhile_cons, if_neg hc]

theorem pySplitAux_append_all_ws : ∀ (s t acc : Str),
    (∀ c ∈ t, pyIsSpace c = true) → pySplitAux (s ++ t) acc = pySplitAux s acc := by
  intro s
  induction s with
  | nil =>
    intro t acc h
    show pySplitAux t acc = pySplitAux [] acc
    cases t with
    | nil => rfl
    | cons c r =>
      have hc := h c (by simp)
      have hr : ∀ x ∈ r, pyIsSpace x = true := fun x hx => h x (by simp [hx])
      have hnil := pySplitAux_all_ws r hr
      rw [pySplitAux_cons_eq, if_pos hc, pySplitAux_nil_eq]
      by_cases ha : acc = []
      · rw [if_pos ha, if_pos ha, hnil]
      · rw [if_neg ha, if_neg ha, hnil]
  | cons c r ih =>
    intro t acc h
    show pySplitAux (c :: (r ++ t)) acc = pySplitAux (c :: r) acc
    rw [pySplitAux_cons_eq, pySplitAux_cons_eq]
    by_cases hc : pyIsSpace c = true
    · rw [if_pos hc, if_pos hc]
      by_cases ha : acc = []
      · rw [if_pos ha, if_pos ha, ih t [] h]
      · rw [if_neg ha, if_neg ha, ih t [] h]
    · rw [if_neg hc, if_neg hc, ih t (c :: acc) h]

theorem pySplit_stripRight (s : Str) : pySplit (stripRight s) = pySplit s := by
  obtain ⟨t, ht, hws⟩ := stripRight_decomp s
  conv_rhs => rw [ht]
  exact (pySplitAux_append_all_ws (stripRight s) t [] hws).symm

theorem pySplit_pyStrip (s : Str) : pySplit (pyStrip s) = pySplit s := by
  rw [pyStrip, pySplit_stripRight]
  exact pySplitAux_dropWhile_ws s

theorem wordCount_join_step (b s : Str) :
    wordCount (pyStrip (b ++ ' ' :: s)) = wordCount b + wordCount s := by
  rw [wordCount, pySplit_pyStrip, pySplit_append_sep]
  simp [wordCount]

theorem pyStrip_all_ws {s : Str} (h : ∀ c ∈ s, pyIsSpace c = true) : pyStrip s = [] := by
  rw [pyStrip, List.dropWhile_eq_nil_iff.mpr h]
  rfl

theorem pySplit_pyStrip_ne_nil {y : Str} (h : pyStrip y ≠ []) : pySplit (pyStrip y) ≠ [] := by
  intro hnil
  rw [pySplit_pyStrip] at hnil
  exact h (pyStrip_all_ws (pySplit_eq_nil_imp y hnil))

theorem mem_normalizeSentences {l : List Str} {s : Str} (h : s ∈ normalizeSentences l) :
    s ≠ [] ∧ pyStrip s = s := by
  rw [normalizeSentences] at h
  have h2 := List.mem_filter.mp h
  obtain ⟨y, _, hys⟩ := List.mem_map.mp h2.1
  refine ⟨by simpa using h2.2, ?_⟩
  rw [← hys]
  exact pyStrip_idem y

theorem pyStrip_cons_ws {c : Char} (hc : pyIsSpace c = true) (s : Str) :
    pyStrip (c :: s) = pyStrip s := by
  rw [pyStrip, pyStrip, List.dropWhile_cons, if_pos hc]

theorem joinWithSpace_ne_nil {s0 : Str} (h : s0 ≠ []) (rest : List Str) :
    joinWithSpace (s0 :: rest) ≠ [] := by
  cases rest with
  | nil => exact h
  | cons r rs =>
    show s0 ++ ' ' :: joinWithSpace (r :: rs) ≠ []
    exact List.append_ne_nil_of_left_ne_nil h _

theorem joinWithSpace_glue : ∀ (rest : List Str) (a s : Str),
    joinWithSpace ((a ++ ' ' :: s) :: rest) = a ++ ' ' :: joinWithSpace (s :: rest) := by
  intro rest
  cases rest with
  | nil => intro a s; rfl
  | cons r rs =>
    intro a s
    show (a ++ ' ' :: s) ++ ' ' :: joinWithSpace (r :: rs)
        = a ++ ' ' :: (s ++ ' ' :: joinWithSpace (r :: rs))
    simp [List.append_assoc]

theorem foldl_step_join :
    ∀ (l : List Str) (b : Str), (∀ s ∈ l, s ≠ [] ∧ pyStrip s = s) →
      pyStrip b = b → b ≠ [] →
      l.foldl (fun x s => pyStrip (x ++ ' ' :: s)) b = joinWithSpace (b :: l) := by
  intro l
  induction l with
  | nil => intro b _ _ _; rfl
  | cons s rest ih =>
    intro b hl hb hbne
    have hs := hl s (by simp)
    have hstep : pyStrip (b ++ ' ' :: s) = b ++ ' ' :: s :=
      pyStrip_join_step hb hbne hs.2 hs.1
    rw [List.foldl_cons, hstep,
      ih (b ++ ' ' :: s) (fun x hx => hl x (by simp [hx])) hstep
        (List.append_ne_nil_of_left_ne_nil hbne _),
      joinWithSpace_glue]
    rfl

theorem split_and_sync_chunks_aux_small (min_length max_length : ℕ) :
    ∀ (l : List Str) (buffer : Str),
      wordCount buffer + (l.map wordCount).sum < min_length →
      split_and_sync_chunks_aux min_length max_length l buffer
        = if l.foldl (fun b s => pyStrip (b ++ ' ' :: s)) buffer = [] then []
          else [l.foldl (fun b s => pyStrip (b ++ ' ' :: s)) buffer] := by
  intro l
  induction l with
  | nil =>
    intro buffer _
    rw [split_and_sync_chunks_aux, List.foldl_nil]
  | cons s rest ih =>
    intro buffer h
    simp only [List.map_cons, List.sum_cons] at h
    have hb : wordCount buffer < min_length := by omega
    simp only [split_and_sync_chunks_aux]
    rw [if_pos hb, List.foldl_cons]
    exact ih (pyStrip (buffer ++ ' ' :: s)) (by rw [wordCount_join_step]; omega)

theorem split_aux_chunks (min_length max_length : ℕ) :
    ∀ (l : List Str) (buffer : Str),
      (∀ s ∈ l, ∃ y, s = pyStrip y) → (buffer = [] ∨ ∃ y, buffer = pyStrip y) →
      ∀ c ∈ split_and_sync_chunks_aux min_length max_length l buffer,
        c ≠ [] ∧ ∃ y, c = pyStrip y := by
  intro l
  induction l with
  | nil =>
    intro buffer _ hb c hc
    rw [split_and_sync_chunks_aux] at hc
    by_cases h : buffer = []
    · rw [if_pos h] at hc; simp at hc
    · rw [if_neg h] at hc
      simp only [List.mem_singleton] at hc
      subst hc
      rcases hb with h2 | h2
      · exact absurd h2 h
      · exact ⟨h, h2⟩
  | cons s rest ih =>
    intro buffer hl hb c hc
    simp only [split_and_sync_chunks_aux] at hc
    by_cases h1 : wordCount buffer < min_length
    · rw [if_pos h1] at hc
      exact ih _ (fun x hx => hl x (by simp [hx]))
        (Or.inr ⟨buffer ++ ' ' :: s, rfl⟩) c hc
    · rw [if_neg h1] at hc
      by_cases h2 : wordCount buffer + wordCount s ≤ max_length
      · rw [if_pos h2] at hc
        exact ih _ (fun x hx => hl x (by simp [hx]))
          (Or.inr ⟨buffer ++ ' ' :: s, rfl⟩) c hc
      · rw [if_neg h2] at hc
        rw [List.mem_append] at hc
        rcases hc with hc | hc
        · by_cases h3 : buffer = []
          · rw [if_pos h3] at hc; simp at hc
          · rw [if_neg h3] at hc
            simp only [List.mem_singleton] at hc
            subst hc
            rcases hb with h4 | h4
            · exact absurd h4 h3
            · exact ⟨h3, h4⟩
        · exact ih s (fun x hx => hl x (by simp [hx])) (Or.inr (hl s (by simp))) c hc

/-- Claim C5: when the normalized sentence list of a non-empty text totals
fewer than `min_words` words, the segmenter returns exactly one chunk, the
space-join of the whole text's sentences; and for every input no returned
chunk is empty or whitespace-only (each contains at least one word). -/
theorem claim5_small_text_one_chunk (min_length max_length : ℕ) (sentences : List Str) :
    (normalizeSentences sentences ≠ [] →
      ((normalizeSentences sentences).map wordCount).sum < min_length →
      split_and_sync_chunks min_length max_length sentences
        = [joinWithSpace (normalizeSentences sentences)])
    ∧ ∀ c ∈ split_and_sync_chunks min_length max_length sentences,
        c ≠ [] ∧ pySplit c ≠ [] := by
  constructor
  · intro hne hsum
    rw [split_and_sync_chunks]
    cases hns : normalizeSentences sentences with
    | nil => exact absurd hns hne
    | cons s0 rest =>
      have hs0 : s0 ≠ [] ∧ pyStrip s0 = s0 :=
        mem_normalizeSentences (l := sentences) (by rw [hns]; simp)
      have hrest : ∀ x ∈ rest, x ≠ [] ∧ pyStrip x = x := fun x hx =>
        mem_normalizeSentences (l := sentences) (by rw [hns]; simp [hx])
      have hsmall : wordCount [] + ((s0 :: rest).map wordCount).sum < min_length := by
        rw [hns] at hsum
        have h0 : wordCount ([] : Str) = 0 := rfl
        omega
      rw [split_and_sync_chunks_aux_small min_length max_length (s0 :: rest) [] hsmall]
      have hfirst : pyStrip (([] : Str) ++ ' ' :: s0) = s0 := by
        rw [List.nil_append, pyStrip_cons_ws (by decide) s0, hs0.2]
      have hfold : (s0 :: rest).foldl (fun b s => pyStrip (b ++ ' ' :: s)) [] =
          joinWithSpace (s0 :: rest) := by
        rw [List.foldl_cons, hfirst, foldl_step_join rest s0 hrest hs0.2 hs0.1]
      rw [hfold, if_neg (joinWithSpace_ne_nil hs0.1 rest)]
      simp [List.filter_cons, joinWithSpace_ne_nil hs0.1 rest]
  · intro c hc
    rw [split_and_sync_chunks] at hc
    have h2 := List.mem_filter.mp hc
    have h3 := split_aux_chunks min_length max_length (normalizeSentences sentences) []
      (fun x hx => ⟨x, ((mem_normalizeSentences hx).2).symm⟩) (Or.inl rfl) c h2.1
    obtain ⟨hcne, y, hy⟩ := h3
    refine ⟨hcne, ?_⟩
    rw [hy]
    exact pySplit_pyStrip_ne_nil (by rw [← hy]; exact hcne)

/-- Claim C5 witness: a two-word text under the source's bounds (8, 25) is one
chunk, and no chunk of it is blank. -/
theorem claim5_small_text_one_chunk_witness :
    split_and_sync_chunks 8 25 ["Hi there".toList]
        = [joinWithSpace (normalizeSentences ["Hi there".toList])]
    ∧ ∀ c ∈ split_and_sync_chunks 8 25 ["Hi there".toList], c ≠ [] ∧ pySplit c ≠ [] :=
  ⟨(claim5_small_text_one_chunk 8 25 ["Hi there".toList]).1 (by decide) (by decide),
   (claim5_small_text_one_chunk 8 25 ["Hi there".toList]).2⟩

theorem pyStrip_eq_nil_imp {s : Str} (h : pyStrip s = []) : ∀ c ∈ s, pyIsSpace c = true := by
  apply pySplit_eq_nil_imp
  rw [← pySplit_pyStrip s, h]
  rfl

theorem part_content_ne_nil (title : Str) (g : List Str) :
    pyStrip (title ++ '.' :: ' ' :: joinWithSpace g) ≠ [] := by
  intro h
  have hdot : ('.' : Char) ∈ title ++ '.' :: ' ' :: joinWithSpace g := by simp
  have := pyStrip_eq_nil_imp h '.' hdot
  exact absurd this (by decide)

theorem split_story_single (cfg : Config) (tok : Str → List Str) (title content : Str)
    (h : estimated_duration_of cfg (full_script title content) ≤ cfg.max_video_duration) :
    split_story_for_2min_limit cfg tok title content = [full_script title content] := by
  simp only [split_story_for_2min_limit]
  rw [if_pos h]

theorem split_story_multi_length (cfg : Config) (tok : Str → List Str)
    (title content : Str) (hmd : 0 < cfg.max_video_duration)
    (h : cfg.max_video_duration < estimated_duration_of cfg (full_script title content)) :
    (split_story_for_2min_limit cfg tok title content).length
      = min ((pyInt (estimated_duration_of cfg (full_script title content)
              / cfg.max_video_duration)).toNat + 1) cfg.max_videos_per_story := by
  simp only [split_story_for_2min_limit]
  rw [if_neg (not_le.mpr h)]
  have hq1 : (1:ℚ) < estimated_duration_of cfg (full_script title content)
      / cfg.max_video_duration := (one_lt_div hmd).mpr h
  have hq0 : (0:ℚ) ≤ estimated_duration_of cfg (full_script title content)
      / cfg.max_video_duration := le_of_lt (lt_trans one_pos hq1)
  have hfl : 1 ≤ pyInt (estimated_duration_of cfg (full_script title content)
      / cfg.max_video_duration) := by
    rw [pyInt, if_pos hq0]
    exact Int.le_floor.mpr (by exact_mod_cast hq1.le)
  rw [List.filter_eq_self.mpr ?_]
  · rw [List.length_map]
    simp only [part_sentence_groups, List.length_map, List.length_range]
    omega
  · intro p hp
    obtain ⟨g, _, rfl⟩ := List.mem_map.mp hp
    exact decide_eq_true (part_content_ne_nil title g)

/-- Claim C6: the partitioner returns one part when the estimate fits the cap
and otherwise `min(floor(estimate/cap) + 1, max_parts)` parts, never exceeding
`max_parts`; in particular an estimate of 300s with cap 120s and max_parts 3
yields exactly 3 parts. -/
theorem claim6_part_count (cfg : Config) (tok : Str → List Str) (title content : Str)
    (hmd : 0 < cfg.max_video_duration) (hmp : 1 ≤ cfg.max_videos_per_story) :
    (estimated_duration_of cfg (full_script title content) ≤ cfg.max_video_duration →
        split_story_for_2min_limit cfg tok title content = [full_script title content])
    ∧ (cfg.max_video_duration < estimated_duration_of cfg (full_script title content) →
        (split_story_for_2min_limit cfg tok title content).length
          = min ((pyInt (estimated_duration_of cfg (full_script title content)
                  / cfg.max_video_duration)).toNat + 1) cfg.max_videos_per_story)
    ∧ (split_story_for_2min_limit cfg tok title content).length
        ≤ cfg.max_videos_per_story
    ∧ (split_story_for_2min_limit scenario6Config scenario6Tok scenario6Title
        scenario6Content).length = 3 := by
  refine ⟨split_story_single cfg tok title content,
    split_story_multi_length cfg tok title content hmd, ?_, ?_⟩
  · by_cases h : estimated_duration_of cfg (full_script title content)
        ≤ cfg.max_video_duration
    · rw [split_story_single cfg tok title content h]
      simpa using hmp
    · rw [split_story_multi_length cfg tok title content hmd (not_le.mp h)]
      exact min_le_right _ _
  · have hwc : wordCount (full_script scenario6Title scenario6Content) = 10 := by decide
    have hest : estimated_duration_of scenario6Config
        (full_script scenario6Title scenario6Content) = 300 := by
      rw [estimated_duration_of, hwc]
      norm_num [scenario6Config, defaultConfig]
    have hmd6 : (0:ℚ) < scenario6Config.max_video_duration := by
      norm_num [scenario6Config, defaultConfig]
    have hlt : scenario6Config.max_video_duration < estimated_duration_of scenario6Config
        (full_script scenario6Title scenario6Content) := by
      rw [hest]; norm_num [scenario6Config, defaultConfig]
    rw [split_story_multi_length scenario6Config scenario6Tok scenario6Title
      scenario6Content hmd6 hlt, hest]
    have hq : (300:ℚ) / scenario6Config.max_video_duration = 5/2 := by
      norm_num [scenario6Config, defaultConfig]
    rw [hq]
    have hpy : pyInt (5/2 : ℚ) = 2 := by
      rw [pyInt, if_pos (by norm_num)]
      norm_num
    rw [hpy, show (2:ℤ).toNat = 2 from rfl]
    norm_num [scenario6Config, defaultConfig]

/-- Claim C6 witness: the scenario configuration satisfies the hypotheses. -/
theorem claim6_part_count_witness :
    (split_story_for_2min_limit scenario6Config scenario6Tok scenario6Title
        scenario6Content).length ≤ scenario6Config.max_videos_per_story :=
  (claim6_part_count scenario6Config scenario6Tok scenario6Title scenario6Content
    (by norm_num [scenario6Config, defaultConfig])
    (by norm_num [scenario6Config, defaultConfig])).2.2.1

theorem flatten_take_slices (l : List Str) (spp : ℕ) :
    ∀ k, ((List.range k).map (fun pn => (l.drop (pn * spp)).take spp)).flatten
      = l.take (k * spp) := by
  intro k
  induction k with
  | zero => simp
  | succ k ih =>
    rw [List.range_succ, List.map_append, List.flatten_append, ih]
    simp only [List.map_cons, List.map_nil, List.flatten_cons, List.flatten_nil,
      List.append_nil]
    rw [show (k + 1) * spp = k * spp + spp from by ring, List.take_add]

/-- Claim C7: concatenating the contiguous sentence groups of the parts, in
order (the last group absorbing the remainder), reproduces the original
sentence sequence with each sentence exactly once; the parts' texts are these
groups joined and prefixed with the title. -/
theorem claim7_partition_coverage (sentences : List Str) (actual_parts : ℕ)
    (h : 1 ≤ actual_parts) :
    (part_sentence_groups sentences actual_parts).flatten = sentences := by
  obtain ⟨a, rfl⟩ : ∃ a, actual_parts = a + 1 := ⟨actual_parts - 1, by omega⟩
  simp only [part_sentence_groups]
  rw [List.range_succ, List.map_append]
  have hmap := List.map_congr_left
    (l := List.range a)
    (f := fun pn => if pn = a + 1 - 1 then
        sentences.drop (pn * (sentences.length / (a + 1)))
      else (sentences.drop (pn * (sentences.length / (a + 1)))).take
        (sentences.length / (a + 1)))
    (g := fun pn => (sentences.drop (pn * (sentences.length / (a + 1)))).take
        (sentences.length / (a + 1)))
    (fun pn hpn => by
      have hne : pn ≠ a + 1 - 1 := by
        have := List.mem_range.mp hpn
        omega
      simp only [if_neg hne])
  rw [hmap, List.flatten_append, flatten_take_slices sentences _ a]
  simp only [List.map_cons, List.map_nil, Nat.add_sub_cancel, if_pos rfl,
    List.flatten_cons, List.flatten_nil, List.append_nil]
  exact List.take_append_drop _ _

/-- Claim C7 witness: five sentences into three groups of sizes 1,1,3. -/
theorem claim7_partition_coverage_witness :
    (part_sentence_groups ["a".toList, "b".toList, "c".toList, "d".toList,
        "e".toList] 3).flatten
      = ["a".toList, "b".toList, "c".toList, "d".toList, "e".toList] :=
  claim7_partition_coverage _ 3 (by norm_num)

theorem combine_loop_nil_eq (target : ℚ) (valid validSeg : BVideo → Bool)
    (total : ℚ) (used : List BVideo) :
    combine_loop target valid validSeg [] total used = (used, total, []) := rfl

theorem combine_loop_cons_eq (target : ℚ) (valid validSeg : BVideo → Bool)
    (v : BVideo) (rest : List BVideo) (total : ℚ) (used : List BVideo) :
    combine_loop target valid validSeg (v :: rest) total used
      = if total < target then
          (if valid v = true then
            (if v.duration ≤ target - total then
              combine_loop target valid validSeg rest (total + v.duration) (used ++ [v])
            else if validSeg v = true then (used ++ [v], total + (target - total), rest)
            else (used, total, rest))
          else combine_loop target valid validSeg rest total used)
        else (used, total, v :: rest) := rfl

theorem combine_loop_total_le (target : ℚ) (valid validSeg : BVideo → Bool) :
    ∀ (pool : List BVideo) (total : ℚ) (used : List BVideo),
      total ≤ target →
      (combine_loop target valid validSeg pool total used).2.1 ≤ target := by
  intro pool
  induction pool with
  | nil => intro total used h; exact h
  | cons v rest ih =>
    intro total used h
    rw [combine_loop_cons_eq]
    by_cases h1 : total < target
    · rw [if_pos h1]
      by_cases h2 : valid v = true
      · rw [if_pos h2]
        by_cases h3 : v.duration ≤ target - total
        · rw [if_pos h3]
          exact ih (total + v.duration) (used ++ [v]) (by linarith)
        · rw [if_neg h3]
          by_cases h4 : validSeg v = true
          · rw [if_pos h4]
            show total + (target - total) ≤ target
            linarith
          · rw [if_neg h4]
            exact h
      · rw [if_neg h2]
        exact ih total used h
    · rw [if_neg h1]
      exact h

theorem combine_loop_decomp (target : ℚ) (valid validSeg : BVideo → Bool) :
    ∀ (pool : List BVideo) (total : ℚ) (used : List BVideo),
      ∃ s proc,
        (combine_loop target valid validSeg pool total used).1 = used ++ s
        ∧ pool = proc ++ (combine_loop target valid validSeg pool total used).2.2
        ∧ s ⊆ proc := by
  intro pool
  induction pool with
  | nil =>
    intro total used
    refine ⟨[], [], ?_, ?_, by simp⟩
    · rw [combine_loop_nil_eq]; simp
    · simp [combine_loop_nil_eq]
  | cons v rest ih =>
    intro total used
    by_cases h1 : total < target
    · by_cases h2 : valid v = true
      · by_cases h3 : v.duration ≤ target - total
        · obtain ⟨s, proc, hs, hp, hsub⟩ := ih (total + v.duration) (used ++ [v])
          refine ⟨v :: s, v :: proc, ?_, ?_, List.cons_subset_cons v hsub⟩
          · rw [combine_loop_cons_eq, if_pos h1, if_pos h2, if_pos h3, hs]
            simp
          · rw [combine_loop_cons_eq, if_pos h1, if_pos h2, if_pos h3,
              List.cons_append, ← hp]
        · by_cases h4 : validSeg v = true
          · refine ⟨[v], [v], ?_, ?_, by simp⟩
            · rw [combine_loop_cons_eq, if_pos h1, if_pos h2, if_neg h3, if_pos h4]
            · rw [combine_loop_cons_eq, if_pos h1, if_pos h2, if_neg h3, if_pos h4]
              rfl
          · refine ⟨[], [v], ?_, ?_, by simp⟩
            · rw [combine_loop_cons_eq, if_pos h1, if_pos h2, if_neg h3, if_neg h4]
              simp
            · rw [combine_loop_cons_eq, if_pos h1, if_pos h2, if_neg h3, if_neg h4]
              rfl
      · obtain ⟨s, proc, hs, hp, hsub⟩ := ih total used
        refine ⟨s, v :: proc, ?_, ?_, fun x hx => List.mem_cons_of_mem v (hsub hx)⟩
        · rw [combine_loop_cons_eq, if_pos h1, if_neg h2, hs]
        · rw [combine_loop_cons_eq, if_pos h1, if_neg h2, List.cons_append, ← hp]
    · refine ⟨[], [], ?_, ?_, by simp⟩
      · rw [combine_loop_cons_eq, if_neg h1]
        simp
      · rw [combine_loop_cons_eq, if_neg h1]
        rfl

theorem combine_snd_eq (target : ℚ) (valid validSeg : BVideo → Bool)
    (shuffle : List BVideo → List BVideo) (pool : List BVideo) :
    (combine_videos_to_target_duration_no_repeat target valid validSeg shuffle pool).2
      = (combine_loop target valid validSeg (shuffle pool) 0 []).2.2 := by
  simp only [combine_videos_to_target_duration_no_repeat]
  split
  · rfl
  · split <;> rfl

theorem combine_some_inv (target : ℚ) (valid validSeg : BVideo → Bool)
    (shuffle : List BVideo → List BVideo) (pool : List BVideo)
    (clip : List BVideo × ℚ) (rem : List BVideo)
    (h : combine_videos_to_target_duration_no_repeat target valid validSeg shuffle pool
      = (some clip, rem)) :
    clip.1 = (combine_loop target valid validSeg (shuffle pool) 0 []).1
    ∧ clip.2 = (combine_loop target valid validSeg (shuffle pool) 0 []).2.1
    ∧ rem = (combine_loop target valid validSeg (shuffle pool) 0 []).2.2 := by
  simp only [combine_videos_to_target_duration_no_repeat] at h
  split at h
  · simp at h
  · split at h
    · simp at h
    · simp only [Prod.mk.injEq, Option.some.injEq] at h
      obtain ⟨h1, h2⟩ := h
      exact ⟨by rw [← h1], by rw [← h1], h2.symm⟩

theorem combine_clip_total_le (target : ℚ) (valid validSeg : BVideo → Bool)
    (shuffle : List BVideo → List BVideo) (htarget : 0 ≤ target)
    (pool : List BVideo) (clip : List BVideo × ℚ) (rem : List BVideo)
    (h : combine_videos_to_target_duration_no_repeat target valid validSeg shuffle pool
      = (some clip, rem)) :
    clip.2 ≤ target := by
  obtain ⟨-, h2, -⟩ := combine_some_inv target valid validSeg shuffle pool clip rem h
  rw [h2]
  exact combine_loop_total_le target valid validSeg (shuffle pool) 0 [] htarget

theorem combine_rem_subset (target : ℚ) (valid validSeg : BVideo → Bool)
    (shuffle : List BVideo → List BVideo) (hsh : ∀ l, (shuffle l).Perm l)
    (pool : List BVideo) :
    ∀ v ∈ (combine_videos_to_target_duration_no_repeat target valid validSeg
        shuffle pool).2, v ∈ pool := by
  intro v hv
  rw [combine_snd_eq] at hv
  obtain ⟨s, proc, -, hp, -⟩ := combine_loop_decomp target valid validSeg (shuffle pool) 0 []
  have hmem : v ∈ shuffle pool := by
    rw [hp]
    exact List.mem_append_right proc hv
  exact (hsh pool).mem_iff.mp hmem

theorem combine_rem_nodup (target : ℚ) (valid validSeg : BVideo → Bool)
    (shuffle : List BVideo → List BVideo) (hsh : ∀ l, (shuffle l).Perm l)
    (pool : List BVideo) (hnd : pool.Nodup) :
    (combine_videos_to_target_duration_no_repeat target valid validSeg
        shuffle pool).2.Nodup := by
  rw [combine_snd_eq]
  obtain ⟨s, proc, -, hp, -⟩ := combine_loop_decomp target valid validSeg (shuffle pool) 0 []
  have hshn : (shuffle pool).Nodup := (hsh pool).nodup_iff.mpr hnd
  rw [hp] at hshn
  exact hshn.of_append_right

theorem combine_clip_subset (target : ℚ) (valid validSeg : BVideo → Bool)
    (shuffle : List BVideo → List BVideo) (hsh : ∀ l, (shuffle l).Perm l)
    (pool : List BVideo) (clip : List BVideo × ℚ) (rem : List BVideo)
    (h : combine_videos_to_target_duration_no_repeat target valid validSeg shuffle pool
      = (some clip, rem)) :
    ∀ v ∈ clip.1, v ∈ pool := by
  intro v hv
  obtain ⟨h1, -, -⟩ := combine_some_inv target valid validSeg shuffle pool clip rem h
  obtain ⟨s, proc, hs, hp, hsub⟩ := combine_loop_decomp target valid validSeg (shuffle pool) 0 []
  rw [h1, hs, List.nil_append] at hv
  have hmem : v ∈ shuffle pool := by
    rw [hp]
    exact List.mem_append_left _ (hsub hv)
  exact (hsh pool).mem_iff.mp hmem

theorem combine_clip_disjoint_rem (target : ℚ) (valid validSeg : BVideo → Bool)
    (shuffle : List BVideo → List BVideo) (hsh : ∀ l, (shuffle l).Perm l)
    (pool : List BVideo) (hnd : pool.Nodup) (clip : List BVideo × ℚ) (rem : List BVideo)
    (h : combine_videos_to_target_duration_no_repeat target valid validSeg shuffle pool
      = (some clip, rem)) :
    ∀ v ∈ clip.1, v ∉ rem := by
  intro v hv
  obtain ⟨h1, -, h3⟩ := combine_some_inv target valid validSeg shuffle pool clip rem h
  obtain ⟨s, proc, hs, hp, hsub⟩ := combine_loop_decomp target valid validSeg (shuffle pool) 0 []
  rw [h1, hs, List.nil_append] at hv
  have hshn : (shuffle pool).Nodup := (hsh pool).nodup_iff.mpr hnd
  rw [hp] at hshn
  rw [h3]
  exact List.disjoint_of_nodup_append hshn (hsub hv)

theorem shorts_outputs_subset (target : ℚ) (valid validSeg : BVideo → Bool)
    (shuffle : List BVideo → List BVideo) (hsh : ∀ l, (shuffle l).Perm l) :
    ∀ (n : ℕ) (pool : List BVideo) (out : List BVideo × ℚ),
      out ∈ create_mobile_shorts_no_repetition target valid validSeg shuffle n pool →
      ∀ v ∈ out.1, v ∈ pool := by
  intro n
  induction n with
  | zero =>
    intro pool out hout
    simp [create_mobile_shorts_no_repetition] at hout
  | succ n ih =>
    intro pool out hout
    rw [create_mobile_shorts_no_repetition] at hout
    split at hout
    · simp at hout
    · split at hout
      · rename_i remaining heq
        intro v hv
        exact combine_rem_subset target valid validSeg shuffle hsh pool v
          (by rw [heq]; exact ih _ out hout v hv)
      · rename_i clip remaining heq
        rcases List.mem_cons.mp hout with hco | hco
        · subst hco
          exact combine_clip_subset target valid validSeg shuffle hsh pool out remaining heq
        · intro v hv
          exact combine_rem_subset target valid validSeg shuffle hsh pool v
            (by rw [heq]; exact ih _ out hco v hv)

theorem shorts_outputs_total_le (target : ℚ) (valid validSeg : BVideo → Bool)
    (shuffle : List BVideo → List BVideo) (htarget : 0 ≤ target) :
    ∀ (n : ℕ) (pool : List BVideo) (out : List BVideo × ℚ),
      out ∈ create_mobile_shorts_no_repetition target valid validSeg shuffle n pool →
      out.2 ≤ target := by
  intro n
  induction n with
  | zero =>
    intro pool out hout
    simp [create_mobile_shorts_no_repetition] at hout
  | succ n ih =>
    intro pool out hout
    rw [create_mobile_shorts_no_repetition] at hout
    split at hout
    · simp at hout
    · split at hout
      · exact ih _ out hout
      · rename_i clip remaining heq
        rcases List.mem_cons.mp hout with hco | hco
        · subst hco
          exact combine_clip_total_le target valid validSeg shuffle htarget pool out
            remaining heq
        · exact ih _ out hco

theorem shorts_outputs_pairwise (target : ℚ) (valid validSeg : BVideo → Bool)
    (shuffle : List BVideo → List BVideo) (hsh : ∀ l, (shuffle l).Perm l) :
    ∀ (n : ℕ) (pool : List BVideo), pool.Nodup →
      List.Pairwise (fun o1 o2 => ∀ v ∈ o1.1, v ∉ o2.1)
        (create_mobile_shorts_no_repetition target valid validSeg shuffle n pool) := by
  intro n
  induction n with
  | zero =>
    intro pool _
    simp [create_mobile_shorts_no_repetition]
  | succ n ih =>
    intro pool hnd
    rw [create_mobile_shorts_no_repetition]
    split
    · simp
    · split
      · rename_i remaining heq
        exact ih remaining (by
          rw [show remaining
              = (combine_videos_to_target_duration_no_repeat target valid validSeg
                  shuffle pool).2 from by rw [heq]]
          exact combine_rem_nodup target valid validSeg shuffle hsh pool hnd)
      · rename_i clip remaining heq
        have hremnd : remaining.Nodup := by
          rw [show remaining
              = (combine_videos_to_target_duration_no_repeat target valid validSeg
                  shuffle pool).2 from by rw [heq]]
          exact combine_rem_nodup target valid validSeg shuffle hsh pool hnd
        rw [List.pairwise_cons]
        refine ⟨?_, ih remaining hremnd⟩
        intro o ho v hv
        intro hvo
        have hvrem : v ∈ remaining :=
          shorts_outputs_subset target valid validSeg shuffle hsh n remaining o ho v hvo
        exact combine_clip_disjoint_rem target valid validSeg shuffle hsh pool hnd
          clip remaining heq v hv hvrem

/-- Claim C10: in the no-repetition background processor, with a shuffling
that permutes the pool and a duplicate-free pool, every source video
contributes footage to at most one produced output across the whole run (the
outputs' source lists are pairwise disjoint, since each combine call pops its
selections from the pool and the shrunken pool is threaded into the next
iteration), and each combined output's accumulated duration never exceeds the
configured target duration. -/
theorem claim10_no_repetition (target : ℚ) (valid validSeg : BVideo → Bool)
    (shuffle : List BVideo → List BVideo) (hsh : ∀ l, (shuffle l).Perm l)
    (htarget : 0 ≤ target) (n : ℕ) (pool : List BVideo) (hnd : pool.Nodup) :
    (∀ out ∈ create_mobile_shorts_no_repetition target valid validSeg shuffle n pool,
        out.2 ≤ target)
    ∧ List.Pairwise (fun o1 o2 => ∀ v ∈ o1.1, v ∉ o2.1)
        (create_mobile_shorts_no_repetition target valid validSeg shuffle n pool) :=
  ⟨fun out hout => shorts_outputs_total_le target valid validSeg shuffle htarget
      n pool out hout,
   shorts_outputs_pairwise target valid validSeg shuffle hsh n pool hnd⟩

/-- Claim C10 witness: a concrete two-video pool combined towards 100s. -/
theorem claim10_no_repetition_witness :
    (∀ out ∈ create_mobile_shorts_no_repetition 100 (fun _ => true) (fun _ => true)
        (fun l => l) 2 [⟨"a".toList, 70⟩, ⟨"b".toList, 80⟩],
        out.2 ≤ 100)
    ∧ List.Pairwise (fun o1 o2 => ∀ v ∈ o1.1, v ∉ o2.1)
        (create_mobile_shorts_no_repetition 100 (fun _ => true) (fun _ => true)
          (fun l => l) 2 [⟨"a".toList, 70⟩, ⟨"b".toList, 80⟩]) :=
  claim10_no_repetition 100 (fun _ => true) (fun _ => true) (fun l => l)
    (fun l => List.Perm.refl l) (by norm_num) 2
    [⟨"a".toList, 70⟩, ⟨"b".toList, 80⟩] (by decide)

end RedditVideo
